import Mathlib

/-!
Shallow embedding of the low-latency trading simulator core
(order book, market-data parser, execution engine, SPSC queue, timekeeper),
with theorems settling the behavioural claims about it.

Machine integers are modelled as `Nat`/`Int` with explicit reductions
modulo `2 ^ 32` (C++ `uint32_t` quantities) and `2 ^ 64` (C++ `size_t`)
at every point where the source performs wrapping arithmetic.
-/

namespace Trading

/-- Modulus of C++ `uint32_t` (the `Quantity` type). -/
def qMod : Nat := 2 ^ 32

/-- Modulus of C++ `size_t` / `uint64_t`. -/
def szMod : Nat := 2 ^ 64

/-- Wrapping `uint32_t` addition, as performed by `+=` on a `Quantity`. -/
def add32 (x y : Nat) : Nat := (x + y) % qMod

/-- Wrapping `uint32_t` subtraction, as performed by `-=` on a `Quantity`. -/
def sub32 (x y : Nat) : Nat := (x + (qMod - y % qMod)) % qMod

/-- Order side (`enum class Side`). -/
inductive Side where
  | buy
  | sell
deriving DecidableEq, Repr

/-- A resting order (`struct Order`).  `Price` is `int64_t`, modelled as `Int`;
`Quantity` is `uint32_t`, modelled as `Nat`. -/
structure Order where
  id : Nat
  price : Int
  quantity : Nat
  original_quantity : Nat
  side : Side
  timestamp : Nat
  symbol : String
deriving DecidableEq, Repr

/-- A price level (`struct OrderBookLevel`). -/
structure OrderBookLevel where
  price : Int
  quantity : Nat
deriving DecidableEq, Repr

/-- The default-constructed level `{price = 0, quantity = 0}`. -/
def emptyLevel : OrderBookLevel := ⟨0, 0⟩

/-- The order book state (`class OrderBook`).  The `unordered_map` from id to
order is modelled as an association list with unique keys. -/
structure OrderBook where
  bid_levels : List OrderBookLevel
  ask_levels : List OrderBookLevel
  orders : List (Nat × Order)
  symbol : String
  best_bid : Option Int
  best_ask : Option Int
deriving DecidableEq, Repr

/-- Lookup in the order index (`orders_.find(id)`). -/
def mapFind (m : List (Nat × Order)) (id : Nat) : Option Order :=
  match m.find? (fun e => e.1 == id) with
  | some e => some e.2
  | none => none

/-- Insert-or-assign on the order index (`orders_[id] = o`). -/
def mapInsert (m : List (Nat × Order)) (id : Nat) (o : Order) : List (Nat × Order) :=
  if m.any (fun e => e.1 == id) then
    m.map (fun e => if e.1 == id then (id, o) else e)
  else
    (id, o) :: m

/-- Erase from the order index (`orders_.erase(it)`). -/
def mapErase (m : List (Nat × Order)) (id : Nat) : List (Nat × Order) :=
  m.filter (fun e => ¬ e.1 = id)

/-- `OrderBook::price_to_index`: `static_cast<size_t>(price) % bid_levels_.size()`.
The cast of the signed 64-bit price to `size_t` is reduction modulo `2 ^ 64`. -/
def price_to_index (price : Int) (size : Nat) : Nat :=
  (price % (szMod : Int)).toNat % size

/-- One step of the best-bid scan of `OrderBook::update_best_prices`:
`if (level.quantity > 0 && (!best_bid_ || level.price > *best_bid_)) best_bid_ = level.price`. -/
def bestBidFold (acc : Option Int) (lvl : OrderBookLevel) : Option Int :=
  if 0 < lvl.quantity then
    match acc with
    | none => some lvl.price
    | some m => if m < lvl.price then some lvl.price else some m
  else acc

/-- One step of the best-ask scan of `OrderBook::update_best_prices`. -/
def bestAskFold (acc : Option Int) (lvl : OrderBookLevel) : Option Int :=
  if 0 < lvl.quantity then
    match acc with
    | none => some lvl.price
    | some m => if lvl.price < m then some lvl.price else some m
  else acc

/-- The best-bid scan over the bid table. -/
def computeBestBid (levels : List OrderBookLevel) : Option Int :=
  levels.foldl bestBidFold none

/-- The best-ask scan over the ask table. -/
def computeBestAsk (levels : List OrderBookLevel) : Option Int :=
  levels.foldl bestAskFold none

/-- `OrderBook::update_best_prices`: recompute both cached tops by a linear
scan over the level tables. -/
def update_best_prices (b : OrderBook) : OrderBook :=
  { b with
    best_bid := computeBestBid b.bid_levels,
    best_ask := computeBestAsk b.ask_levels }

/-- In-place level update of `add_order`: `price = o.price; quantity += o.quantity`. -/
def levelAdd (levels : List OrderBookLevel) (idx : Nat) (price : Int) (q : Nat) :
    List OrderBookLevel :=
  levels.set idx ⟨price, add32 (levels.getD idx emptyLevel).quantity q⟩

/-- In-place level update `quantity -= q` (price field untouched). -/
def levelSub (levels : List OrderBookLevel) (idx : Nat) (q : Nat) : List OrderBookLevel :=
  levels.set idx
    ⟨(levels.getD idx emptyLevel).price, sub32 (levels.getD idx emptyLevel).quantity q⟩

/-- In-place level update of `modify_order`: `quantity -= old; quantity += new`. -/
def levelSubAdd (levels : List OrderBookLevel) (idx : Nat) (oldq newq : Nat) :
    List OrderBookLevel :=
  levels.set idx
    ⟨(levels.getD idx emptyLevel).price,
      add32 (sub32 (levels.getD idx emptyLevel).quantity oldq) newq⟩

/-- `OrderBook::add_order`. -/
def OrderBook.add_order (b : OrderBook) (o : Order) : OrderBook :=
  let b1 := { b with orders := mapInsert b.orders o.id o }
  let idx := price_to_index o.price b.bid_levels.length
  let b2 :=
    match o.side with
    | Side.buy => { b1 with bid_levels := levelAdd b1.bid_levels idx o.price o.quantity }
    | Side.sell => { b1 with ask_levels := levelAdd b1.ask_levels idx o.price o.quantity }
  update_best_prices b2

/-- `OrderBook::modify_order`. -/
def OrderBook.modify_order (b : OrderBook) (id : Nat) (new_quantity : Nat) :
    Bool × OrderBook :=
  match mapFind b.orders id with
  | none => (false, b)
  | some o =>
    let idx := price_to_index o.price b.bid_levels.length
    let b1 :=
      match o.side with
      | Side.buy => { b with bid_levels := levelSubAdd b.bid_levels idx o.quantity new_quantity }
      | Side.sell => { b with ask_levels := levelSubAdd b.ask_levels idx o.quantity new_quantity }
    let b2 := { b1 with orders := mapInsert b1.orders id { o with quantity := new_quantity } }
    (true, update_best_prices b2)

/-- `OrderBook::cancel_order`. -/
def OrderBook.cancel_order (b : OrderBook) (id : Nat) : Bool × OrderBook :=
  match mapFind b.orders id with
  | none => (false, b)
  | some o =>
    let idx := price_to_index o.price b.bid_levels.length
    let b1 :=
      match o.side with
      | Side.buy => { b with bid_levels := levelSub b.bid_levels idx o.quantity }
      | Side.sell => { b with ask_levels := levelSub b.ask_levels idx o.quantity }
    let b2 := { b1 with orders := mapErase b1.orders id }
    (true, update_best_prices b2)

/-- `OrderBook::execute_order`. -/
def OrderBook.execute_order (b : OrderBook) (id : Nat) (exec_quantity : Nat) :
    Bool × OrderBook :=
  match mapFind b.orders id with
  | none => (false, b)
  | some o =>
    if o.quantity < exec_quantity then (false, b)
    else
      let idx := price_to_index o.price b.bid_levels.length
      let b1 :=
        match o.side with
        | Side.buy => { b with bid_levels := levelSub b.bid_levels idx exec_quantity }
        | Side.sell => { b with ask_levels := levelSub b.ask_levels idx exec_quantity }
      let newq := sub32 o.quantity exec_quantity
      let b2 :=
        if newq = 0 then { b1 with orders := mapErase b1.orders id }
        else { b1 with orders := mapInsert b1.orders id { o with quantity := newq } }
      (true, update_best_prices b2)

/-- `OrderBook::depth`: count of non-empty levels on each side. -/
def OrderBook.depth (b : OrderBook) : Nat × Nat :=
  ((b.bid_levels.filter (fun l => 0 < l.quantity)).length,
   (b.ask_levels.filter (fun l => 0 < l.quantity)).length)

/-- The book produced by `OrderBook::OrderBook(symbol, price_levels)`:
both level tables resized to `price_levels` default-constructed levels,
empty order index, absent best prices. -/
def initBook (price_levels : Nat) (sym : String) : OrderBook :=
  { bid_levels := List.replicate price_levels emptyLevel,
    ask_levels := List.replicate price_levels emptyLevel,
    orders := [],
    symbol := sym,
    best_bid := none,
    best_ask := none }

/-- One call of the order-book mutation interface. -/
inductive BookOp where
  | add (o : Order)
  | modify (id : Nat) (q : Nat)
  | cancel (id : Nat)
  | execute (id : Nat) (q : Nat)
deriving DecidableEq, Repr

/-- State transition of a single interface call (the returned `bool` of the
C++ call is dropped; a failed call leaves the state unchanged). -/
def stepBook (b : OrderBook) (op : BookOp) : OrderBook :=
  match op with
  | BookOp.add o => b.add_order o
  | BookOp.modify id q => (b.modify_order id q).2
  | BookOp.cancel id => (b.cancel_order id).2
  | BookOp.execute id q => (b.execute_order id q).2

/-- Run a sequence of interface calls. -/
def runBook (b : OrderBook) (ops : List BookOp) : OrderBook :=
  ops.foldl stepBook b

/-- The prices of the non-empty levels of one side table. -/
def livePrices (levels : List OrderBookLevel) : List Int :=
  (levels.filter (fun l => 0 < l.quantity)).map (fun l => l.price)

/-- The cached tops agree with a fresh scan of the level tables. -/
def bestOk (b : OrderBook) : Prop :=
  b.best_bid = computeBestBid b.bid_levels ∧ b.best_ask = computeBestAsk b.ask_levels

/-- The step the best-bid scan performs on the price of each non-empty level. -/
def maxStep (acc : Option Int) (p : Int) : Option Int :=
  match acc with
  | none => some p
  | some m => if m < p then some p else some m

/-- The step the best-ask scan performs on the price of each non-empty level. -/
def minStep (acc : Option Int) (p : Int) : Option Int :=
  match acc with
  | none => some p
  | some m => if p < m then some p else some m

/-- A concrete buy order at price 100 (claim C1 instances). -/
def cxOrderBuy : Order := ⟨1, 100, 5, 5, Side.buy, 0, "A"⟩

/-- A concrete sell order at price 50 (claim C1 instances). -/
def cxOrderSell : Order := ⟨2, 50, 5, 5, Side.sell, 0, "A"⟩

/-- A concrete resting order (claim C2 witness). -/
def c2Order : Order := ⟨1, 10, 5, 5, Side.buy, 0, "A"⟩

def c5Order : Order := ⟨1, 5, 10, 10, Side.buy, 0, "A"⟩

/-- Per-call validity: the add is constructor-built with positive quantity, and
a modify does not exceed the target's original quantity and is positive. -/
def opOK (b : OrderBook) : BookOp → Bool
  | BookOp.add o =>
    decide (0 < o.quantity) && decide (o.quantity = o.original_quantity) &&
      decide (o.original_quantity < qMod)
  | BookOp.modify id q =>
    match mapFind b.orders id with
    | none => true
    | some o => decide (0 < q) && decide (q ≤ o.original_quantity)
  | BookOp.cancel _ => true
  | BookOp.execute _ _ => true

/-- Validity of a call sequence, checked against the states it traverses. -/
def validSeq (b : OrderBook) : List BookOp → Bool
  | [] => true
  | op :: rest => opOK b op && validSeq (stepBook b op) rest

/-- Every order resting in the index has positive quantity bounded by its
original quantity (which fits in 32 bits). -/
def InvQty (b : OrderBook) : Prop :=
  ∀ e ∈ b.orders, 0 < e.2.quantity ∧ e.2.quantity ≤ e.2.original_quantity ∧
    e.2.original_quantity < qMod

def c6Order : Order := ⟨1, 5, 10, 10, Side.buy, 0, "A"⟩

def c10OrderA : Order := ⟨1, 5, 10, 10, Side.buy, 0, "A"⟩

def c10OrderB : Order := ⟨2, 9, 7, 7, Side.buy, 0, "A"⟩

/-- `sizeof(MarketDataMessage)` under `#pragma pack(1)`: 8-byte timestamp +
1-byte type + 1-byte symbol_length + the 21-byte union (its largest member,
`AddOrderData` = 8 + 8 + 4 + 1 = 21 bytes). The parser frames every message
with this one fixed size, regardless of the message type. -/
def msgStructSize : Nat := 31

/-- `MarketDataHandler::parse_message`: at `offset`, if fewer than
`sizeof(MarketDataMessage)` bytes remain, fail; else read `symbol_length`
(the byte at `offset + 9`), compute `total_size = sizeof(MarketDataMessage) +
symbol_length`; if fewer than `total_size` bytes remain, fail; else return the
31 message bytes, the symbol bytes that follow them, and the advanced offset. -/
def parse_message (data : List Nat) (offset max_length : Nat) :
    Option (List Nat × List Nat × Nat) :=
  if max_length < offset + msgStructSize then none
  else
    let symbol_length := data.getD (offset + 9) 0
    let total_size := msgStructSize + symbol_length
    if max_length < offset + total_size then none
    else
      some ((data.drop offset).take msgStructSize,
        (data.drop (offset + msgStructSize)).take symbol_length,
        offset + total_size)

/-- The `while (offset < length)` loop of `MarketDataHandler::process_buffer`,
with the reference's `processed += offset` accumulation (using the offset value
already advanced past the parsed message).  `fuel` bounds the iteration count;
every successful parse advances the offset by at least 31 bytes, so
`length + 1` iterations always suffice. -/
def processLoop (data : List Nat) (length offset processed fuel : Nat) : Nat :=
  match fuel with
  | 0 => processed
  | fuel + 1 =>
    if offset < length then
      match parse_message data offset length with
      | none => processed
      | some r => processLoop data length r.2.2 (processed + r.2.2) fuel
    else processed

/-- `MarketDataHandler::process_buffer` (its returned byte count; the callback
and book-update side effects do not affect the count). -/
def process_buffer (data : List Nat) (length : Nat) : Nat :=
  processLoop data length 0 0 (length + 1)

/-- The per-type payload sizes asserted by the specification (Add=21,
Modify=12, Cancel=8, Execute=20, Trade=13, others 0); stated only to exhibit
the divergence from the code's fixed 31-byte framing. -/
def specPayloadSize (t : Nat) : Nat :=
  if t = 1 then 21 else if t = 2 then 12 else if t = 3 then 8
  else if t = 4 then 20 else if t = 5 then 13 else 0

/-- An 18-byte buffer that is one complete CancelOrder message under the
claim's framing: 10-byte header (timestamp 0, type 3, symbol_length 0)
followed by the 8-byte CancelOrder payload (order_id 1), no symbol. -/
def cancelMsg18 : List Nat :=
  [0, 0, 0, 0, 0, 0, 0, 0, 3, 0, 1, 0, 0, 0, 0, 0, 0, 0]

/-- A 31-byte Heartbeat message (type 7, symbol_length 0, 21 padding bytes of
the unused union). -/
def heartbeatMsg : List Nat :=
  List.replicate 8 0 ++ 7 :: 0 :: List.replicate 21 0

/-- A 33-byte buffer: one Heartbeat message carrying the 2-byte symbol "AB". -/
def heartbeatMsgAB : List Nat :=
  List.replicate 8 0 ++ 7 :: 2 :: List.replicate 21 0 ++ [65, 66]

/-- An in-flight order of the execution engine (`struct ExecutionOrder`). -/
structure ExecutionOrder where
  order_id : Nat
  price : Int
  quantity : Nat
  side : Side
  symbol : String
  timestamp : Nat
deriving DecidableEq, Repr

/-- `enum class OrderStatus` (PARTIALLY_FILLED shortened to `partFilled`). -/
inductive OrderStatus where
  | new
  | pending
  | partFilled
  | filled
  | canceled
  | rejected
deriving DecidableEq, Repr

/-- `struct ExecutionReport`. -/
structure ExecutionReport where
  order_id : Nat
  status : OrderStatus
  price : Int
  exec_quantity : Nat
  leaves_quantity : Nat
  symbol : String
  timestamp : Nat
deriving DecidableEq, Repr

/-- The mutex-guarded mutable state of `class ExecutionEngine`: the pending
order map, the work queue of order ids, and the id generator.  The embedding
is sequential: lock acquisitions are erased. -/
structure ExecutionEngine where
  pending_orders : List (Nat × ExecutionOrder)
  order_queue : List Nat
  next_order_id : Nat
deriving DecidableEq, Repr

/-- Lookup in `pending_orders_` (`pending_orders_.find(id)`). -/
def engineFind (m : List (Nat × ExecutionOrder)) (id : Nat) : Option ExecutionOrder :=
  match m.find? (fun e => e.1 == id) with
  | some e => some e.2
  | none => none

/-- `pending_orders_.erase(it)`. -/
def engineErase (m : List (Nat × ExecutionOrder)) (id : Nat) :
    List (Nat × ExecutionOrder) :=
  m.filter (fun e => ¬ e.1 = id)

/-- `ExecutionEngine::get_order_status`: absent id is REJECTED; a pending id
absent from the work queue is FILLED; the id at the queue front is PENDING;
any other queued id is NEW. -/
def ExecutionEngine.get_order_status (s : ExecutionEngine) (id : Nat) : OrderStatus :=
  match engineFind s.pending_orders id with
  | none => OrderStatus.rejected
  | some _ =>
    if s.order_queue.contains id then
      if s.order_queue.head? = some id then OrderStatus.pending
      else OrderStatus.new
    else OrderStatus.filled

/-- `ExecutionEngine::cancel_order` (lock acquisitions erased; `now` is the
clock value read when building the report).  Returns the C++ `bool` result,
the engine state after the call, and the list of reports passed to the
execution callback during the call. -/
def ExecutionEngine.cancel_order (s : ExecutionEngine) (id : Nat) (now : Nat) :
    Bool × ExecutionEngine × List ExecutionReport :=
  match engineFind s.pending_orders id with
  | none => (false, s, [])
  | some o =>
    if s.get_order_status id = OrderStatus.filled then (false, s, [])
    else
      (true,
        { s with pending_orders := engineErase s.pending_orders id },
        [⟨id, OrderStatus.canceled, o.price, 0, o.quantity, o.symbol, now⟩])

/-- A concrete engine holding one pending order of remaining quantity 7,
queued for the worker (claim C7). -/
def c7Engine : ExecutionEngine :=
  { pending_orders := [(1, ⟨1, 100, 7, Side.buy, "A", 0⟩)],
    order_queue := [1],
    next_order_id := 2 }

/-- The SPSC ring (`template<typename T, size_t Capacity> class LockFreeQueue`):
a fixed buffer of `Capacity` slots (uninitialized storage modelled as `none`;
a destroyed element's slot returns to `none`) and two monotonically increasing
positions.  The atomic loads/stores of the two counters are erased: the claim
is about single-threaded sequential use. -/
structure LockFreeQueue (α : Type) where
  buffer : List (Option α)
  read_pos : Nat
  write_pos : Nat
deriving DecidableEq, Repr

/-- A default-constructed queue of capacity `cap`. -/
def LockFreeQueue.init (α : Type) (cap : Nat) : LockFreeQueue α :=
  ⟨List.replicate cap none, 0, 0⟩

/-- `LockFreeQueue::try_push`: fail when `write_pos - read_pos >= Capacity`,
else construct the value at slot `write_pos % Capacity` and increment
`write_pos`. -/
def LockFreeQueue.try_push {α : Type} (q : LockFreeQueue α) (v : α) :
    Bool × LockFreeQueue α :=
  if q.buffer.length ≤ q.write_pos - q.read_pos then (false, q)
  else
    (true,
      { q with
        buffer := q.buffer.set (q.write_pos % q.buffer.length) (some v),
        write_pos := q.write_pos + 1 })

/-- `LockFreeQueue::try_pop`: fail when `read_pos >= write_pos`, else move out
the element at slot `read_pos % Capacity`, destroy it, and increment
`read_pos`. -/
def LockFreeQueue.try_pop {α : Type} (q : LockFreeQueue α) :
    Option α × LockFreeQueue α :=
  if q.write_pos ≤ q.read_pos then (none, q)
  else
    (q.buffer.getD (q.read_pos % q.buffer.length) none,
      { q with
        buffer := q.buffer.set (q.read_pos % q.buffer.length) none,
        read_pos := q.read_pos + 1 })

/-- The live slots of the queue, oldest first. -/
def LockFreeQueue.contents {α : Type} (q : LockFreeQueue α) : List (Option α) :=
  (List.range (q.write_pos - q.read_pos)).map
    (fun i => q.buffer.getD ((q.read_pos + i) % q.buffer.length) none)

/-- The queue represents the value sequence `l` (oldest first). -/
def QueueAbs {α : Type} (q : LockFreeQueue α) (l : List α) : Prop :=
  q.read_pos ≤ q.write_pos ∧
  q.write_pos - q.read_pos ≤ q.buffer.length ∧
  q.contents = l.map some

/-- One queue call of the sequential push/pop interface. -/
inductive QueueOp (α : Type) where
  | push (v : α)
  | pop
deriving DecidableEq, Repr

/-- Run a sequence of calls, requiring every call to succeed; collects the
popped values in order. -/
def runQueue {α : Type} : LockFreeQueue α → List (QueueOp α) →
    Option (LockFreeQueue α × List α)
  | q, [] => some (q, [])
  | q, QueueOp.push v :: rest =>
    match q.try_push v with
    | (true, q') => runQueue q' rest
    | (false, _) => none
  | q, QueueOp.pop :: rest =>
    match q.try_pop with
    | (some v, q') => (runQueue q' rest).map (fun r => (r.1, v :: r.2))
    | (none, _) => none

/-- The values pushed by a call sequence, in order. -/
def pushedValues {α : Type} : List (QueueOp α) → List α
  | [] => []
  | QueueOp.push v :: rest => v :: pushedValues rest
  | QueueOp.pop :: rest => pushedValues rest

def c8Ops : List (QueueOp Nat) :=
  [QueueOp.push 1, QueueOp.push 2, QueueOp.pop, QueueOp.pop]

def c8Final : LockFreeQueue Nat := ⟨[none, none], 2, 2⟩

/-- The sampling state of `class Timekeeper`: the recorded samples (ns), the
sample cap, and the `sorted_` flag.  The monotonic-clock start time is not
modelled (the claims are about the sampled values). -/
structure Timekeeper where
  samples : List Nat
  max_samples : Nat
  sorted : Bool
deriving DecidableEq, Repr

/-- `Timekeeper::sort_samples`: sort the stored vector in place (ascending)
unless it is already flagged as sorted.  `std::sort` on `Nat` is modelled by
insertion sort: the ascending reordering of a multiset of naturals is unique,
so any correct sort denotes the same list. -/
def Timekeeper.sort_samples (t : Timekeeper) : Timekeeper :=
  if t.sorted then t
  else { t with samples := List.insertionSort (· ≤ ·) t.samples, sorted := true }

/-- The index computation of `Timekeeper::percentile`:
`size_t idx = static_cast<size_t>(std::ceil(p * samples_.size())) - 1;
idx = std::min(idx, samples_.size() - 1);`.
The cast of the non-negative integral double `ceil(p*n)` is `Int.toNat`; the
`- 1` is `size_t` arithmetic, i.e. adding `2^64 - 1` modulo `2^64` (for
`ceil = 0` it wraps to `2^64 - 1`); the double product `p * n` is modelled as
exact rational arithmetic. -/
def percentileIdx (p : ℚ) (n : Nat) : Nat :=
  min ((Int.toNat ⌈p * (n : ℚ)⌉ + (szMod - 1)) % szMod) (n - 1)

/-- `Timekeeper::percentile`: 0 on an empty sample set; otherwise sort the
samples in place and return the element at `percentileIdx`, together with the
post-call state. -/
def Timekeeper.percentile (t : Timekeeper) (p : ℚ) : Nat × Timekeeper :=
  if t.samples = [] then (0, t)
  else
    let t' := t.sort_samples
    (t'.samples.getD (percentileIdx p t'.samples.length) 0, t')

def c9Tk : Timekeeper := ⟨[10, 20, 30], 1000, false⟩

theorem bestOk_update (b : OrderBook) : bestOk (update_best_prices b) :=
  ⟨rfl, rfl⟩

theorem bestOk_step (b : OrderBook) (op : BookOp) (h : bestOk b) :
    bestOk (stepBook b op) := by
  cases op with
  | add o => exact bestOk_update _
  | modify id q =>
    show bestOk (b.modify_order id q).2
    rw [OrderBook.modify_order]
    cases hf : mapFind b.orders id with
    | none => exact h
    | some o => exact bestOk_update _
  | cancel id =>
    show bestOk (b.cancel_order id).2
    rw [OrderBook.cancel_order]
    cases hf : mapFind b.orders id with
    | none => exact h
    | some o => exact bestOk_update _
  | execute id q =>
    show bestOk (b.execute_order id q).2
    rw [OrderBook.execute_order]
    cases hf : mapFind b.orders id with
    | none => exact h
    | some o =>
      by_cases hlt : o.quantity < q
      · simp only [hlt, if_true]
        exact h
      · simp only [hlt, if_false]
        exact bestOk_update _

theorem bestOk_run (b : OrderBook) (ops : List BookOp) (h : bestOk b) :
    bestOk (runBook b ops) := by
  induction ops generalizing b with
  | nil => exact h
  | cons op rest ih => exact ih _ (bestOk_step b op h)

theorem foldl_fold_none_replicate (f : Option Int → OrderBookLevel → Option Int)
    (hf : f none emptyLevel = none) (c : Nat) :
    (List.replicate c emptyLevel).foldl f none = none := by
  induction c with
  | zero => rfl
  | succ n ih => simpa [List.replicate_succ, hf] using ih

theorem bestOk_init (c : Nat) (sym : String) : bestOk (initBook c sym) := by
  constructor
  · show none = computeBestBid (List.replicate c emptyLevel)
    rw [computeBestBid, foldl_fold_none_replicate]
    rfl
  · show none = computeBestAsk (List.replicate c emptyLevel)
    rw [computeBestAsk, foldl_fold_none_replicate]
    rfl

theorem foldl_bestBidFold (levels : List OrderBookLevel) (acc : Option Int) :
    levels.foldl bestBidFold acc = (livePrices levels).foldl maxStep acc := by
  induction levels generalizing acc with
  | nil => rfl
  | cons l ls ih =>
    by_cases hq : 0 < l.quantity
    · simp [livePrices, List.filter_cons, hq, bestBidFold, maxStep, ih]
    · simp [livePrices, List.filter_cons, hq, bestBidFold, ih]

theorem foldl_bestAskFold (levels : List OrderBookLevel) (acc : Option Int) :
    levels.foldl bestAskFold acc = (livePrices levels).foldl minStep acc := by
  induction levels generalizing acc with
  | nil => rfl
  | cons l ls ih =>
    by_cases hq : 0 < l.quantity
    · simp [livePrices, List.filter_cons, hq, bestAskFold, minStep, ih]
    · simp [livePrices, List.filter_cons, hq, bestAskFold, ih]

theorem foldl_maxStep_some (ps : List Int) (m : Int) :
    ps.foldl maxStep (some m) = some (ps.foldl max m) := by
  induction ps generalizing m with
  | nil => rfl
  | cons p ps ih =>
    have hstep : maxStep (some m) p = some (max m p) := by
      rcases lt_or_le m p with h | h
      · simp [maxStep, h, max_eq_right h.le]
      · simp [maxStep, not_lt.2 h, max_eq_left h]
    simp only [List.foldl_cons, hstep, ih]

theorem foldl_minStep_some (ps : List Int) (m : Int) :
    ps.foldl minStep (some m) = some (ps.foldl min m) := by
  induction ps generalizing m with
  | nil => rfl
  | cons p ps ih =>
    have hstep : minStep (some m) p = some (min m p) := by
      rcases lt_or_le p m with h | h
      · simp [minStep, h, min_eq_right h.le]
      · simp [minStep, not_lt.2 h, min_eq_left h]
    simp only [List.foldl_cons, hstep, ih]

theorem foldl_max_init_le (ps : List Int) (m : Int) : m ≤ ps.foldl max m := by
  induction ps generalizing m with
  | nil => exact le_refl m
  | cons p ps ih => exact le_trans (le_max_left m p) (ih (max m p))

theorem foldl_max_mem_le (ps : List Int) (m : Int) :
    ∀ p ∈ ps, p ≤ ps.foldl max m := by
  induction ps generalizing m with
  | nil => intro p hp; cases hp
  | cons q ps ih =>
    intro p hp
    rcases List.mem_cons.mp hp with rfl | hp'
    · exact le_trans (le_max_right m p) (foldl_max_init_le ps (max m p))
    · exact ih (max m q) p hp'

theorem foldl_max_mem_or (ps : List Int) (m : Int) :
    ps.foldl max m = m ∨ ps.foldl max m ∈ ps := by
  induction ps generalizing m with
  | nil => exact Or.inl rfl
  | cons p ps ih =>
    rcases ih (max m p) with h | h
    · rcases le_or_lt p m with hpm | hpm
      · rw [List.foldl_cons] at *
        rw [h, max_eq_left hpm]
        exact Or.inl rfl
      · rw [List.foldl_cons] at *
        rw [h, max_eq_right hpm.le]
        exact Or.inr (List.mem_cons_self p ps)
    · exact Or.inr (List.mem_cons_of_mem p h)

theorem foldl_min_init_le (ps : List Int) (m : Int) : ps.foldl min m ≤ m := by
  induction ps generalizing m with
  | nil => exact le_refl m
  | cons p ps ih => exact le_trans (ih (min m p)) (min_le_left m p)

theorem foldl_min_mem_le (ps : List Int) (m : Int) :
    ∀ p ∈ ps, ps.foldl min m ≤ p := by
  induction ps generalizing m with
  | nil => intro p hp; cases hp
  | cons q ps ih =>
    intro p hp
    rcases List.mem_cons.mp hp with rfl | hp'
    · exact le_trans (foldl_min_init_le ps (min m p)) (min_le_right m p)
    · exact ih (min m q) p hp'

theorem foldl_min_mem_or (ps : List Int) (m : Int) :
    ps.foldl min m = m ∨ ps.foldl min m ∈ ps := by
  induction ps generalizing m with
  | nil => exact Or.inl rfl
  | cons p ps ih =>
    rcases ih (min m p) with h | h
    · rcases le_or_lt m p with hpm | hpm
      · rw [List.foldl_cons] at *
        rw [h, min_eq_left hpm]
        exact Or.inl rfl
      · rw [List.foldl_cons] at *
        rw [h, min_eq_right hpm.le]
        exact Or.inr (List.mem_cons_self p ps)
    · exact Or.inr (List.mem_cons_of_mem p h)

theorem computeBestBid_spec (levels : List OrderBookLevel)
    (hne : livePrices levels ≠ []) :
    ∃ m, computeBestBid levels = some m ∧ m ∈ livePrices levels ∧
      ∀ p ∈ livePrices levels, p ≤ m := by
  obtain ⟨p, ps, hps⟩ := List.exists_cons_of_ne_nil hne
  refine ⟨ps.foldl max p, ?_, ?_, ?_⟩
  · rw [computeBestBid, foldl_bestBidFold, hps, List.foldl_cons]
    show ps.foldl maxStep (some p) = _
    exact foldl_maxStep_some ps p
  · rw [hps]
    rcases foldl_max_mem_or ps p with h | h
    · rw [h]; exact List.mem_cons_self p ps
    · exact List.mem_cons_of_mem p h
  · intro q hq
    rw [hps] at hq
    rcases List.mem_cons.mp hq with rfl | hq'
    · exact foldl_max_init_le ps q
    · exact foldl_max_mem_le ps p q hq'

theorem computeBestAsk_spec (levels : List OrderBookLevel)
    (hne : livePrices levels ≠ []) :
    ∃ m, computeBestAsk levels = some m ∧ m ∈ livePrices levels ∧
      ∀ p ∈ livePrices levels, m ≤ p := by
  obtain ⟨p, ps, hps⟩ := List.exists_cons_of_ne_nil hne
  refine ⟨ps.foldl min p, ?_, ?_, ?_⟩
  · rw [computeBestAsk, foldl_bestAskFold, hps, List.foldl_cons]
    show ps.foldl minStep (some p) = _
    exact foldl_minStep_some ps p
  · rw [hps]
    rcases foldl_min_mem_or ps p with h | h
    · rw [h]; exact List.mem_cons_self p ps
    · exact List.mem_cons_of_mem p h
  · intro q hq
    rw [hps] at hq
    rcases List.mem_cons.mp hq with rfl | hq'
    · exact foldl_min_init_le ps q
    · exact foldl_min_mem_le ps p q hq'

/-- Claim C1 (amended): for every OrderBook reachable by any sequence of
add_order, modify_order, cancel_order and execute_order calls from a freshly
constructed book, if the set of non-empty bid levels is non-empty then
best_bid() is the maximum price among them, and symmetrically best_ask() is
the minimum price among non-empty ask levels.  (The further clause of the
claim, that best_bid < best_ask whenever both are present, is refuted by
`claim_C1_crossed_counterexample`: nothing prevents adding a crossing order.) -/
theorem claim_C1_best_prices (c : Nat) (sym : String) (ops : List BookOp)
    (b : OrderBook) (hb : b = runBook (initBook c sym) ops) :
    (livePrices b.bid_levels ≠ [] →
      ∃ m, b.best_bid = some m ∧ m ∈ livePrices b.bid_levels ∧
        ∀ p ∈ livePrices b.bid_levels, p ≤ m) ∧
    (livePrices b.ask_levels ≠ [] →
      ∃ m, b.best_ask = some m ∧ m ∈ livePrices b.ask_levels ∧
        ∀ p ∈ livePrices b.ask_levels, m ≤ p) := by
  subst hb
  have h := bestOk_run (initBook c sym) ops (bestOk_init c sym)
  constructor
  · intro hne
    obtain ⟨m, hm, hmem, hle⟩ := computeBestBid_spec _ hne
    exact ⟨m, by rw [h.1, hm], hmem, hle⟩
  · intro hne
    obtain ⟨m, hm, hmem, hle⟩ := computeBestAsk_spec _ hne
    exact ⟨m, by rw [h.2, hm], hmem, hle⟩

set_option maxRecDepth 40000 in
/-- Claim C1 counterexample: after add_order of a buy at 100 and a sell at 50
on a default-capacity (256-level) book, both tops are present and
best_bid = 100 is NOT below best_ask = 50 — a crossed book is reachable by
add_order calls alone, refuting the claim's final clause. -/
theorem claim_C1_crossed_counterexample :
    (runBook (initBook 256 "A") [BookOp.add cxOrderBuy, BookOp.add cxOrderSell]).best_bid =
        some 100 ∧
    (runBook (initBook 256 "A") [BookOp.add cxOrderBuy, BookOp.add cxOrderSell]).best_ask =
        some 50 ∧
    ¬ (100 : Int) < 50 := by
  refine ⟨by decide, by decide, by decide⟩

set_option maxRecDepth 40000 in
/-- Witness for `claim_C1_best_prices` at a concrete reachable book. -/
theorem claim_C1_best_prices_witness :
    ∃ m, (runBook (initBook 8 "A") [BookOp.add cxOrderBuy]).best_bid = some m ∧
      m ∈ livePrices (runBook (initBook 8 "A") [BookOp.add cxOrderBuy]).bid_levels ∧
      ∀ p ∈ livePrices (runBook (initBook 8 "A") [BookOp.add cxOrderBuy]).bid_levels,
        p ≤ m :=
  (claim_C1_best_prices 8 "A" [BookOp.add cxOrderBuy] _ rfl).1 (by decide)

theorem getD_set_self {α : Type} (l : List α) (i : Nat) (a d : α)
    (h : i < l.length) : (l.set i a).getD i d = a := by
  rw [List.getD_eq_getElem _ _ (by simpa using h)]
  simp [List.getElem_set_self]

theorem getD_set_ne {α : Type} (l : List α) (i j : Nat) (a d : α)
    (h : j ≠ i) : (l.set i a).getD j d = l.getD j d := by
  simp [List.getD, List.getElem?_set_ne (Ne.symm h)]

theorem mapFind_cons (e : Nat × Order) (m : List (Nat × Order)) (id : Nat) :
    mapFind (e :: m) id = if e.1 = id then some e.2 else mapFind m id := by
  by_cases h : e.1 = id
  · simp [mapFind, List.find?_cons, h]
  · simp [mapFind, List.find?_cons, h]

theorem mapErase_cons (e : Nat × Order) (m : List (Nat × Order)) (id : Nat) :
    mapErase (e :: m) id = if e.1 = id then mapErase m id else e :: mapErase m id := by
  by_cases h : e.1 = id <;> simp [mapErase, List.filter_cons, h]

theorem mapFind_erase_self (m : List (Nat × Order)) (id : Nat) :
    mapFind (mapErase m id) id = none := by
  induction m with
  | nil => rfl
  | cons e m ih =>
    rw [mapErase_cons]
    by_cases he : e.1 = id
    · rw [if_pos he]
      exact ih
    · rw [if_neg he, mapFind_cons, if_neg he]
      exact ih

theorem mapFind_erase_ne (m : List (Nat × Order)) (id id' : Nat) (h : id' ≠ id) :
    mapFind (mapErase m id) id' = mapFind m id' := by
  induction m with
  | nil => rfl
  | cons e m ih =>
    rw [mapErase_cons, mapFind_cons]
    by_cases he : e.1 = id
    · have hne : ¬ e.1 = id' := by rw [he]; exact Ne.symm h
      rw [if_pos he, if_neg hne]
      exact ih
    · rw [if_neg he, mapFind_cons]
      by_cases he' : e.1 = id'
      · rw [if_pos he', if_pos he']
      · rw [if_neg he', if_neg he']
        exact ih

theorem mapFind_mapReplace_self (m : List (Nat × Order)) (id : Nat) (o : Order)
    (h : m.any (fun e => e.1 == id) = true) :
    mapFind (m.map (fun e => if e.1 == id then (id, o) else e)) id = some o := by
  induction m with
  | nil => cases h
  | cons e m ih =>
    by_cases he : e.1 = id
    · simp [he, mapFind_cons]
    · have h' : m.any (fun e => e.1 == id) = true := by simpa [he] using h
      have ih' := ih h'
      simp only [beq_iff_eq] at ih'
      simp [he, mapFind_cons, ih']

theorem mapFind_mapReplace_ne (m : List (Nat × Order)) (id id' : Nat) (o : Order)
    (h : id' ≠ id) :
    mapFind (m.map (fun e => if e.1 == id then (id, o) else e)) id' = mapFind m id' := by
  induction m with
  | nil => rfl
  | cons e m ih =>
    have ih' := ih
    simp only [beq_iff_eq] at ih'
    by_cases he : e.1 = id
    · have h1 : ¬ (id = id') := Ne.symm h
      have h2 : ¬ (e.1 = id') := by rw [he]; exact Ne.symm h
      simp [he, mapFind_cons, h1, h2, ih']
    · by_cases he' : e.1 = id'
      · simp [he, mapFind_cons, he', h]
      · simp [he, mapFind_cons, he', ih']

theorem mapFind_insert_self (m : List (Nat × Order)) (id : Nat) (o : Order) :
    mapFind (mapInsert m id o) id = some o := by
  rw [mapInsert]
  by_cases h : m.any (fun e => e.1 == id)
  · simp only [h, if_true]
    exact mapFind_mapReplace_self m id o h
  · simp only [h, if_false]
    simp [mapFind_cons]

theorem mapFind_insert_ne (m : List (Nat × Order)) (id id' : Nat) (o : Order)
    (h : id' ≠ id) : mapFind (mapInsert m id o) id' = mapFind m id' := by
  rw [mapInsert]
  by_cases ha : m.any (fun e => e.1 == id)
  · simp only [ha, if_true]
    exact mapFind_mapReplace_ne m id id' o h
  · simp only [ha, if_false]
    simp [mapFind_cons, Ne.symm h]

theorem sub32_exact (x y : Nat) (hy : y ≤ x) (hx : x < qMod) : sub32 x y = x - y := by
  show (x + (2 ^ 32 - y % 2 ^ 32)) % 2 ^ 32 = x - y
  have hx' : x < 2 ^ 32 := hx
  have : y % 2 ^ 32 = y := Nat.mod_eq_of_lt (lt_of_le_of_lt hy hx')
  rw [this]
  omega

theorem add32_exact (x y : Nat) (h : x + y < qMod) : add32 x y = x + y := by
  show (x + y) % 2 ^ 32 = x + y
  exact Nat.mod_eq_of_lt h

/-- Claim C2: execute_order semantics. -/
theorem claim_C2_execute_order (b : OrderBook) (id q : Nat) :
    (mapFind b.orders id = none → b.execute_order id q = (false, b)) ∧
    (∀ o, mapFind b.orders id = some o → o.quantity < q →
      b.execute_order id q = (false, b)) ∧
    (∀ o, mapFind b.orders id = some o → q ≤ o.quantity → o.quantity < qMod →
      (b.execute_order id q).1 = true ∧
      mapFind (b.execute_order id q).2.orders id =
        (if o.quantity = q then none else some { o with quantity := o.quantity - q }) ∧
      (∀ id', id' ≠ id →
        mapFind (b.execute_order id q).2.orders id' = mapFind b.orders id') ∧
      (o.side = Side.buy →
        (b.execute_order id q).2.bid_levels =
          levelSub b.bid_levels (price_to_index o.price b.bid_levels.length) q ∧
        (b.execute_order id q).2.ask_levels = b.ask_levels) ∧
      (o.side = Side.sell →
        (b.execute_order id q).2.ask_levels =
          levelSub b.ask_levels (price_to_index o.price b.bid_levels.length) q ∧
        (b.execute_order id q).2.bid_levels = b.bid_levels) ∧
      (b.execute_order id q).2.best_bid =
        computeBestBid (b.execute_order id q).2.bid_levels ∧
      (b.execute_order id q).2.best_ask =
        computeBestAsk (b.execute_order id q).2.ask_levels) := by
  refine ⟨?_, ?_, ?_⟩
  · intro hf
    simp [OrderBook.execute_order, hf]
  · intro o hf hlt
    simp [OrderBook.execute_order, hf, hlt]
  · intro o hf hle hq32
    have hnlt : ¬ o.quantity < q := not_lt.mpr hle
    have hsub : sub32 o.quantity q = o.quantity - q := sub32_exact _ _ hle hq32
    have hziff : sub32 o.quantity q = 0 ↔ o.quantity = q := by
      rw [hsub]
      omega
    cases hos : o.side with
    | buy =>
      have hmain : b.execute_order id q = (true, update_best_prices
          { bid_levels := levelSub b.bid_levels (price_to_index o.price b.bid_levels.length) q,
            ask_levels := b.ask_levels,
            orders := if o.quantity = q then mapErase b.orders id
              else mapInsert b.orders id { o with quantity := o.quantity - q },
            symbol := b.symbol,
            best_bid := b.best_bid,
            best_ask := b.best_ask }) := by
        by_cases hz : o.quantity = q
        · have hz0 : sub32 o.quantity q = 0 := hziff.mpr hz
          have hz1 : o.quantity - q = 0 := by omega
          simp only [OrderBook.execute_order, hf, hnlt, if_false, hos, hz0, hsub, hz1,
            if_pos hz, if_true]
        · have hz0 : ¬ sub32 o.quantity q = 0 := fun hc => hz (hziff.mp hc)
          have hz1 : ¬ o.quantity - q = 0 := by omega
          simp only [OrderBook.execute_order, hf, hnlt, if_false, hos, hz0, hsub, hz1,
            if_neg hz]
      refine ⟨by rw [hmain], ?_, ?_, ?_, ?_, by rw [hmain]; rfl, by rw [hmain]; rfl⟩
      · rw [hmain]
        by_cases hz : o.quantity = q
        · simp [hz, update_best_prices, mapFind_erase_self]
        · simp [hz, update_best_prices, mapFind_insert_self, hos]
      · intro id' hid'
        rw [hmain]
        by_cases hz : o.quantity = q
        · simp only [hz, if_true, update_best_prices]
          exact mapFind_erase_ne _ _ _ hid'
        · simp only [hz, if_false, update_best_prices]
          exact mapFind_insert_ne _ _ _ _ hid'
      · intro _
        rw [hmain]
        exact ⟨rfl, rfl⟩
      · intro hcon
        simp [hos] at hcon
    | sell =>
      have hmain : b.execute_order id q = (true, update_best_prices
          { bid_levels := b.bid_levels,
            ask_levels := levelSub b.ask_levels (price_to_index o.price b.bid_levels.length) q,
            orders := if o.quantity = q then mapErase b.orders id
              else mapInsert b.orders id { o with quantity := o.quantity - q },
            symbol := b.symbol,
            best_bid := b.best_bid,
            best_ask := b.best_ask }) := by
        by_cases hz : o.quantity = q
        · have hz0 : sub32 o.quantity q = 0 := hziff.mpr hz
          have hz1 : o.quantity - q = 0 := by omega
          simp only [OrderBook.execute_order, hf, hnlt, if_false, hos, hz0, hsub, hz1,
            if_pos hz, if_true]
        · have hz0 : ¬ sub32 o.quantity q = 0 := fun hc => hz (hziff.mp hc)
          have hz1 : ¬ o.quantity - q = 0 := by omega
          simp only [OrderBook.execute_order, hf, hnlt, if_false, hos, hz0, hsub, hz1,
            if_neg hz]
      refine ⟨by rw [hmain], ?_, ?_, ?_, ?_, by rw [hmain]; rfl, by rw [hmain]; rfl⟩
      · rw [hmain]
        by_cases hz : o.quantity = q
        · simp [hz, update_best_prices, mapFind_erase_self]
        · simp [hz, update_best_prices, mapFind_insert_self, hos]
      · intro id' hid'
        rw [hmain]
        by_cases hz : o.quantity = q
        · simp only [hz, if_true, update_best_prices]
          exact mapFind_erase_ne _ _ _ hid'
        · simp only [hz, if_false, update_best_prices]
          exact mapFind_insert_ne _ _ _ _ hid'
      · intro hcon
        simp [hos] at hcon
      · intro _
        rw [hmain]
        exact ⟨rfl, rfl⟩

/-- Witness for `claim_C2_execute_order` at a concrete book. -/
theorem claim_C2_execute_order_witness :
    (OrderBook.execute_order (runBook (initBook 4 "A") [BookOp.add c2Order]) 1 3).1 = true :=
  ((claim_C2_execute_order (runBook (initBook 4 "A") [BookOp.add c2Order]) 1 3).2.2 c2Order
    (by decide) (by decide) (by decide)).1

theorem price_to_index_lt (p : Int) (n : Nat) (h : 0 < n) : price_to_index p n < n :=
  Nat.mod_lt _ h

/-- Claim C5 (amended). -/
theorem claim_C5_duplicate_add (b : OrderBook) (o o0 : Order)
    (_hf : mapFind b.orders o.id = some o0)
    (hlen : 0 < b.bid_levels.length)
    (hlen2 : b.ask_levels.length = b.bid_levels.length) :
    mapFind (b.add_order o).orders o.id = some o ∧
    (o.side = Side.buy →
      ((b.add_order o).bid_levels.getD (price_to_index o.price b.bid_levels.length)
          emptyLevel).quantity =
        add32 ((b.bid_levels.getD (price_to_index o.price b.bid_levels.length)
          emptyLevel).quantity) o.quantity ∧
      ((b.add_order o).bid_levels.getD (price_to_index o.price b.bid_levels.length)
          emptyLevel).price = o.price) ∧
    (o.side = Side.sell →
      ((b.add_order o).ask_levels.getD (price_to_index o.price b.bid_levels.length)
          emptyLevel).quantity =
        add32 ((b.ask_levels.getD (price_to_index o.price b.bid_levels.length)
          emptyLevel).quantity) o.quantity ∧
      ((b.add_order o).ask_levels.getD (price_to_index o.price b.bid_levels.length)
          emptyLevel).price = o.price) := by
  have hidx : price_to_index o.price b.bid_levels.length < b.bid_levels.length :=
    price_to_index_lt _ _ hlen
  cases hos : o.side with
  | buy =>
    refine ⟨?_, ?_, ?_⟩
    · simp only [OrderBook.add_order, hos, update_best_prices]
      exact mapFind_insert_self _ _ _
    · intro _
      constructor
      · simp only [OrderBook.add_order, hos, update_best_prices, levelAdd]
        rw [getD_set_self _ _ _ _ hidx]
      · simp only [OrderBook.add_order, hos, update_best_prices, levelAdd]
        rw [getD_set_self _ _ _ _ hidx]
    · intro hcon
      simp [hos] at hcon
  | sell =>
    have hidx' : price_to_index o.price b.bid_levels.length < b.ask_levels.length := by
      rw [hlen2]; exact hidx
    refine ⟨?_, ?_, ?_⟩
    · simp only [OrderBook.add_order, hos, update_best_prices]
      exact mapFind_insert_self _ _ _
    · intro hcon
      simp [hos] at hcon
    · intro _
      constructor
      · simp only [OrderBook.add_order, hos, update_best_prices, levelAdd]
        rw [getD_set_self _ _ _ _ hidx']
      · simp only [OrderBook.add_order, hos, update_best_prices, levelAdd]
        rw [getD_set_self _ _ _ _ hidx']

/-- Claim C5 counterexample. -/
theorem claim_C5_counterexample :
    OrderBook.add_order (runBook (initBook 4 "A") [BookOp.add c5Order]) c5Order ≠
      runBook (initBook 4 "A") [BookOp.add c5Order] ∧
    ((OrderBook.add_order (runBook (initBook 4 "A") [BookOp.add c5Order])
        c5Order).bid_levels.getD 1 emptyLevel).quantity = 20 ∧
    ((runBook (initBook 4 "A") [BookOp.add c5Order]).bid_levels.getD 1
        emptyLevel).quantity = 10 := by
  refine ⟨by decide, by decide, by decide⟩

/-- Witness for `claim_C5_duplicate_add`. -/
theorem claim_C5_duplicate_add_witness :
    mapFind ((runBook (initBook 4 "A") [BookOp.add c5Order]).add_order c5Order).orders
      c5Order.id = some c5Order :=
  (claim_C5_duplicate_add (runBook (initBook 4 "A") [BookOp.add c5Order]) c5Order c5Order
    (by decide) (by decide) (by decide)).1

theorem mem_mapInsert (m : List (Nat × Order)) (id : Nat) (o : Order)
    (e : Nat × Order) (he : e ∈ mapInsert m id o) : e = (id, o) ∨ e ∈ m := by
  rw [mapInsert] at he
  by_cases h : m.any (fun e => e.1 == id)
  · rw [if_pos h] at he
    obtain ⟨e', he', hee⟩ := List.mem_map.mp he
    by_cases hc : e'.1 == id
    · rw [if_pos hc] at hee
      exact Or.inl hee.symm
    · rw [if_neg hc] at hee
      exact Or.inr (hee ▸ he')
  · rw [if_neg h] at he
    rcases List.mem_cons.mp he with h1 | h1
    · exact Or.inl h1
    · exact Or.inr h1

theorem mem_mapErase (m : List (Nat × Order)) (id : Nat) (e : Nat × Order)
    (he : e ∈ mapErase m id) : e ∈ m :=
  List.mem_of_mem_filter he

theorem mapFind_some_mem (m : List (Nat × Order)) (id : Nat) (o : Order)
    (h : mapFind m id = some o) : ∃ e ∈ m, e.2 = o := by
  rw [mapFind] at h
  cases hfind : m.find? (fun e => e.1 == id) with
  | none => rw [hfind] at h; cases h
  | some e =>
    rw [hfind] at h
    refine ⟨e, List.mem_of_find?_eq_some hfind, ?_⟩
    cases h
    rfl

theorem InvQty_step (b : OrderBook) (op : BookOp) (hI : InvQty b)
    (hok : opOK b op = true) : InvQty (stepBook b op) := by
  cases op with
  | add o =>
    simp only [opOK, Bool.and_eq_true, decide_eq_true_eq] at hok
    obtain ⟨⟨h1, h2⟩, h3⟩ := hok
    show InvQty (b.add_order o)
    cases hos : o.side with
    | buy =>
      intro e he
      simp only [OrderBook.add_order, hos, update_best_prices] at he
      rcases mem_mapInsert _ _ _ _ he with rfl | hmem
      · exact ⟨h1, le_of_eq h2, h2 ▸ h3⟩
      · exact hI e hmem
    | sell =>
      intro e he
      simp only [OrderBook.add_order, hos, update_best_prices] at he
      rcases mem_mapInsert _ _ _ _ he with rfl | hmem
      · exact ⟨h1, le_of_eq h2, h2 ▸ h3⟩
      · exact hI e hmem
  | modify id q =>
    show InvQty (b.modify_order id q).2
    rw [OrderBook.modify_order]
    cases hf : mapFind b.orders id with
    | none => exact hI
    | some o =>
      simp only [opOK, hf, Bool.and_eq_true, decide_eq_true_eq] at hok
      obtain ⟨h1, h2⟩ := hok
      obtain ⟨e0, he0, he0o⟩ := mapFind_some_mem _ _ _ hf
      have horig := (hI e0 he0).2.2
      rw [he0o] at horig
      cases hos : o.side with
      | buy =>
        intro e he
        simp only [hos, update_best_prices] at he
        rcases mem_mapInsert _ _ _ _ he with rfl | hmem
        · exact ⟨h1, h2, horig⟩
        · exact hI e hmem
      | sell =>
        intro e he
        simp only [hos, update_best_prices] at he
        rcases mem_mapInsert _ _ _ _ he with rfl | hmem
        · exact ⟨h1, h2, horig⟩
        · exact hI e hmem
  | cancel id =>
    show InvQty (b.cancel_order id).2
    rw [OrderBook.cancel_order]
    cases hf : mapFind b.orders id with
    | none => exact hI
    | some o =>
      cases hos : o.side with
      | buy =>
        intro e he
        simp only [hos, update_best_prices] at he
        exact hI e (mem_mapErase _ _ _ he)
      | sell =>
        intro e he
        simp only [hos, update_best_prices] at he
        exact hI e (mem_mapErase _ _ _ he)
  | execute id q =>
    show InvQty (b.execute_order id q).2
    rw [OrderBook.execute_order]
    cases hf : mapFind b.orders id with
    | none => exact hI
    | some o =>
      by_cases hlt : o.quantity < q
      · simp only [hlt, if_true]
        exact hI
      · simp only [hlt, if_false]
        obtain ⟨e0, he0, he0o⟩ := mapFind_some_mem _ _ _ hf
        obtain ⟨hpos, hlee, horig⟩ := hI e0 he0
        rw [he0o] at hpos hlee horig
        have hq32 : o.quantity < qMod := lt_of_le_of_lt hlee horig
        have hsub : sub32 o.quantity q = o.quantity - q :=
          sub32_exact _ _ (not_lt.mp hlt) hq32
        by_cases hz : sub32 o.quantity q = 0
        · simp only [hz, if_true]
          cases hos : o.side with
          | buy =>
            intro e he
            simp only [hos, update_best_prices] at he
            exact hI e (mem_mapErase _ _ _ he)
          | sell =>
            intro e he
            simp only [hos, update_best_prices] at he
            exact hI e (mem_mapErase _ _ _ he)
        · simp only [hz, if_false]
          have hgoal : 0 < sub32 o.quantity q ∧ sub32 o.quantity q ≤ o.original_quantity := by
            rw [hsub]
            omega
          cases hos : o.side with
          | buy =>
            intro e he
            simp only [hos, update_best_prices] at he
            rcases mem_mapInsert _ _ _ _ he with rfl | hmem
            · exact ⟨hgoal.1, hgoal.2, horig⟩
            · exact hI e hmem
          | sell =>
            intro e he
            simp only [hos, update_best_prices] at he
            rcases mem_mapInsert _ _ _ _ he with rfl | hmem
            · exact ⟨hgoal.1, hgoal.2, horig⟩
            · exact hI e hmem

theorem InvQty_run (b : OrderBook) (ops : List BookOp) (hI : InvQty b)
    (hv : validSeq b ops = true) : InvQty (runBook b ops) := by
  induction ops generalizing b with
  | nil => exact hI
  | cons op rest ih =>
    rw [validSeq, Bool.and_eq_true] at hv
    exact ih _ (InvQty_step b op hI hv.1) hv.2

/-- Claim C6 (amended). -/
theorem claim_C6_quantity_invariant (c : Nat) (sym : String) (ops : List BookOp)
    (hv : validSeq (initBook c sym) ops = true) :
    InvQty (runBook (initBook c sym) ops) := by
  refine InvQty_run _ _ ?_ hv
  intro e he
  cases he

/-- Claim C6 counterexample. -/
theorem claim_C6_counterexample :
    mapFind (runBook (initBook 4 "A") [BookOp.add c6Order, BookOp.modify 1 0]).orders 1 =
      some { c6Order with quantity := 0 } ∧
    mapFind (runBook (initBook 4 "A") [BookOp.add c6Order, BookOp.modify 1 20]).orders 1 =
      some { c6Order with quantity := 20 } ∧
    ¬ ((20 : Nat) ≤ c6Order.original_quantity) := by
  refine ⟨by decide, by decide, by decide⟩

/-- Witness for `claim_C6_quantity_invariant`. -/
theorem claim_C6_quantity_invariant_witness :
    InvQty (runBook (initBook 4 "A")
      [BookOp.add c6Order, BookOp.execute 1 3, BookOp.modify 1 5, BookOp.cancel 1]) :=
  claim_C6_quantity_invariant 4 "A"
    [BookOp.add c6Order, BookOp.execute 1 3, BookOp.modify 1 5, BookOp.cancel 1]
    (by decide)

theorem add_order_bid_levels (b : OrderBook) (o : Order) (hbuy : o.side = Side.buy) :
    (b.add_order o).bid_levels =
      levelAdd b.bid_levels (price_to_index o.price b.bid_levels.length) o.price
        o.quantity := by
  simp [OrderBook.add_order, hbuy, update_best_prices]

theorem levelAdd_length (levels : List OrderBookLevel) (idx : Nat) (p : Int) (q : Nat) :
    (levelAdd levels idx p q).length = levels.length := by
  simp [levelAdd]

theorem stepBook_lengths (b : OrderBook) (op : BookOp) :
    (stepBook b op).bid_levels.length = b.bid_levels.length ∧
    (stepBook b op).ask_levels.length = b.ask_levels.length := by
  cases op with
  | add o =>
    show (b.add_order o).bid_levels.length = _ ∧ (b.add_order o).ask_levels.length = _
    cases hos : o.side <;>
      simp [OrderBook.add_order, hos, update_best_prices, levelAdd]
  | modify id q =>
    show (b.modify_order id q).2.bid_levels.length = _ ∧
      (b.modify_order id q).2.ask_levels.length = _
    rw [OrderBook.modify_order]
    cases hf : mapFind b.orders id with
    | none => exact ⟨rfl, rfl⟩
    | some o =>
      cases hos : o.side <;> simp [hos, update_best_prices, levelSubAdd]
  | cancel id =>
    show (b.cancel_order id).2.bid_levels.length = _ ∧
      (b.cancel_order id).2.ask_levels.length = _
    rw [OrderBook.cancel_order]
    cases hf : mapFind b.orders id with
    | none => exact ⟨rfl, rfl⟩
    | some o =>
      cases hos : o.side <;> simp [hos, update_best_prices, levelSub]
  | execute id q =>
    show (b.execute_order id q).2.bid_levels.length = _ ∧
      (b.execute_order id q).2.ask_levels.length = _
    rw [OrderBook.execute_order]
    cases hf : mapFind b.orders id with
    | none => exact ⟨rfl, rfl⟩
    | some o =>
      by_cases hlt : o.quantity < q
      · simp [hlt]
      · simp only [hlt, if_false]
        by_cases hz : sub32 o.quantity q = 0 <;>
          cases hos : o.side <;>
            simp [hz, hos, update_best_prices, levelSub]

theorem runBook_lengths (b : OrderBook) (ops : List BookOp) :
    (runBook b ops).bid_levels.length = b.bid_levels.length ∧
    (runBook b ops).ask_levels.length = b.ask_levels.length := by
  induction ops generalizing b with
  | nil => exact ⟨rfl, rfl⟩
  | cons op rest ih =>
    refine ⟨?_, ?_⟩
    · rw [show runBook b (op :: rest) = runBook (stepBook b op) rest from rfl,
        (ih (stepBook b op)).1, (stepBook_lengths b op).1]
    · rw [show runBook b (op :: rest) = runBook (stepBook b op) rest from rfl,
        (ih (stepBook b op)).2, (stepBook_lengths b op).2]

theorem price_to_index_nonneg_eq (p : Int) (c : Nat) (h0 : 0 ≤ p)
    (hlt : p < (szMod : Int)) : price_to_index p c = p.toNat % c := by
  rw [price_to_index, Int.emod_eq_of_lt h0 hlt]

theorem price_to_index_congr (p p' : Int) (c : Nat) (h0 : 0 ≤ p)
    (hlt : p < (szMod : Int)) (h0' : 0 ≤ p') (hlt' : p' < (szMod : Int))
    (hmod : p % (c : Int) = p' % (c : Int)) :
    price_to_index p c = price_to_index p' c := by
  rw [price_to_index_nonneg_eq p c h0 hlt, price_to_index_nonneg_eq p' c h0' hlt']
  have hcast : ((p.toNat % c : Nat) : Int) = ((p'.toNat % c : Nat) : Int) := by
    push_cast
    rw [Int.toNat_of_nonneg h0, Int.toNat_of_nonneg h0']
    exact hmod
  exact_mod_cast hcast

/-- Claim C10. -/
theorem claim_C10_price_aliasing (c : Nat) :
    (∀ p : Int, price_to_index p c = (p % (szMod : Int)).toNat % c) ∧
    (∀ p p' : Int, 0 ≤ p → p < (szMod : Int) → 0 ≤ p' → p' < (szMod : Int) →
      p % (c : Int) = p' % (c : Int) → price_to_index p c = price_to_index p' c) ∧
    (∀ (b : OrderBook) (o o' : Order), b.bid_levels.length = c → 0 < c →
      o.side = Side.buy → o'.side = Side.buy →
      0 ≤ o.price → o.price < (szMod : Int) → 0 ≤ o'.price → o'.price < (szMod : Int) →
      o.price % (c : Int) = o'.price % (c : Int) →
      (((b.add_order o).add_order o').bid_levels.getD (price_to_index o'.price c)
          emptyLevel).quantity =
        add32 (add32 ((b.bid_levels.getD (price_to_index o'.price c)
          emptyLevel).quantity) o.quantity) o'.quantity ∧
      (((b.add_order o).add_order o').bid_levels.getD (price_to_index o'.price c)
          emptyLevel).price = o'.price) ∧
    (∀ (sym : String) (ops : List BookOp),
      (OrderBook.depth (runBook (initBook c sym) ops)).1 ≤ c ∧
      (OrderBook.depth (runBook (initBook c sym) ops)).2 ≤ c) := by
  refine ⟨fun p => rfl, price_to_index_congr (c := c), ?_, ?_⟩
  · intro b o o' hlc hc hbuy hbuy' h0 hlt h0' hlt' hmod
    have hcong : price_to_index o.price c = price_to_index o'.price c :=
      price_to_index_congr _ _ _ h0 hlt h0' hlt' hmod
    have hlen1 : (b.add_order o).bid_levels.length = c := by
      rw [add_order_bid_levels b o hbuy, levelAdd_length, hlc]
    have hidx : price_to_index o'.price c < c := Nat.mod_lt _ hc
    rw [add_order_bid_levels _ o' hbuy', hlen1, add_order_bid_levels b o hbuy, hlc, hcong]
    constructor
    · rw [levelAdd, getD_set_self _ _ _ _ (by rw [levelAdd_length, hlc]; exact hidx)]
      show add32 ((levelAdd b.bid_levels (price_to_index o'.price c) o.price
        o.quantity).getD (price_to_index o'.price c) emptyLevel).quantity o'.quantity = _
      rw [levelAdd, getD_set_self _ _ _ _ (by rw [hlc]; exact hidx)]
    · rw [levelAdd, getD_set_self _ _ _ _ (by rw [levelAdd_length, hlc]; exact hidx)]
  · intro sym ops
    have h1 := (runBook_lengths (initBook c sym) ops).1
    have h2 := (runBook_lengths (initBook c sym) ops).2
    constructor
    · calc (OrderBook.depth (runBook (initBook c sym) ops)).1
          ≤ (runBook (initBook c sym) ops).bid_levels.length :=
            List.length_filter_le _ _
        _ = c := by rw [h1]; simp [initBook]
    · calc (OrderBook.depth (runBook (initBook c sym) ops)).2
          ≤ (runBook (initBook c sym) ops).ask_levels.length :=
            List.length_filter_le _ _
        _ = c := by rw [h2]; simp [initBook]

/-- Witness for `claim_C10_price_aliasing`. -/
theorem claim_C10_price_aliasing_witness :
    ((((initBook 4 "A").add_order c10OrderA).add_order c10OrderB).bid_levels.getD
        (price_to_index c10OrderB.price 4) emptyLevel).quantity =
      add32 (add32 (((initBook 4 "A").bid_levels.getD
        (price_to_index c10OrderB.price 4) emptyLevel).quantity) c10OrderA.quantity)
        c10OrderB.quantity :=
  ((claim_C10_price_aliasing 4).2.2.1 (initBook 4 "A") c10OrderA c10OrderB
    (by decide) (by decide) (by decide) (by decide) (by decide) (by decide)
    (by decide) (by decide) (by decide)).1

/-- Claim C3 (amended): the parser stops exactly when fewer than
`31 + symbol_length` bytes remain at offset `k`, where 31 =
`sizeof(MarketDataMessage)` = 10-byte header + 21-byte union — the same for
every message type (NOT 10 + a per-type payload size); otherwise it yields the
31 message bytes, the `symbol_length` symbol bytes starting at `k + 31`, and
advances the offset by exactly `31 + symbol_length`. -/
theorem claim_C3_parse_framing (data : List Nat) (k len : Nat) :
    (len < k + msgStructSize + data.getD (k + 9) 0 →
      parse_message data k len = none) ∧
    (k + msgStructSize + data.getD (k + 9) 0 ≤ len →
      parse_message data k len =
        some ((data.drop k).take msgStructSize,
          (data.drop (k + msgStructSize)).take (data.getD (k + 9) 0),
          k + msgStructSize + data.getD (k + 9) 0)) := by
  constructor
  · intro h
    rw [parse_message]
    by_cases h1 : len < k + msgStructSize
    · rw [if_pos h1]
    · rw [if_neg h1]
      have h2 : len < k + (msgStructSize + data.getD (k + 9) 0) := by omega
      simp only [h2, if_true]
  · intro h
    rw [parse_message]
    have h1 : ¬ len < k + msgStructSize := by omega
    have h2 : ¬ len < k + (msgStructSize + data.getD (k + 9) 0) := by omega
    rw [if_neg h1]
    simp only [h2, if_false]
    have : k + (msgStructSize + data.getD (k + 9) 0) =
        k + msgStructSize + data.getD (k + 9) 0 := by omega
    rw [this]

/-- Claim C3 counterexample: an 18-byte buffer that the claim's framing
(total = 10 + payload_size(CancelOrder) + symbol_length = 18) declares a
complete message, yet the parser yields nothing: it requires 31 bytes for
every message. -/
theorem claim_C3_counterexample :
    10 + specPayloadSize (cancelMsg18.getD 8 0) + cancelMsg18.getD 9 0 =
      cancelMsg18.length ∧
    parse_message cancelMsg18 0 cancelMsg18.length = none := by
  refine ⟨by decide, by decide⟩

/-- Witness for `claim_C3_parse_framing`. -/
theorem claim_C3_parse_framing_witness :
    parse_message heartbeatMsgAB 0 heartbeatMsgAB.length =
      some ((heartbeatMsgAB.drop 0).take msgStructSize,
        (heartbeatMsgAB.drop (0 + msgStructSize)).take (heartbeatMsgAB.getD (0 + 9) 0),
        0 + msgStructSize + heartbeatMsgAB.getD (0 + 9) 0) :=
  (claim_C3_parse_framing heartbeatMsgAB 0 heartbeatMsgAB.length).2 (by decide)

/-- Claim C4 (code bug): on a buffer of two complete 31-byte messages,
process_buffer consumes all 62 bytes but returns 31 + 62 = 93: the loop
accumulates `processed += offset` with the already-advanced offset, so for
n parsed messages it returns the sum of all the intermediate offsets instead
of the final offset.  (A buffer holding a single complete message returns 31,
which coincides with the consumed count — the overcount needs two messages.) -/
theorem claim_C4_overcount :
    process_buffer (heartbeatMsg ++ heartbeatMsg) 62 = 93 ∧
    (heartbeatMsg ++ heartbeatMsg).length = 62 ∧
    process_buffer heartbeatMsg 31 = 31 ∧
    ¬ (93 : Nat) = 62 := by
  refine ⟨by decide, by decide, by decide, by decide⟩

/-- Claim C7, evaluated at the failing input with the re-entrant lock erased:
cancelling the pending, non-Filled order 1 removes it from the pending map,
emits exactly one Canceled report with exec_quantity 0 and leaves_quantity
equal to the remaining quantity 7, and returns true; cancelling the unknown
id 42 returns false, emits no report and leaves the engine unchanged.  (In the
C++ this success path never completes: cancel_order already holds `mutex_`
when it calls `get_order_status`, which locks the same non-recursive mutex.) -/
theorem claim_C7_cancel_order :
    ExecutionEngine.cancel_order c7Engine 1 5 =
      (true,
        { pending_orders := [], order_queue := [1], next_order_id := 2 },
        [⟨1, OrderStatus.canceled, 100, 0, 7, "A", 5⟩]) ∧
    ExecutionEngine.cancel_order c7Engine 42 5 = (false, c7Engine, []) := by
  refine ⟨by decide, by decide⟩

theorem mod_add_ne {a d cap : Nat} (hd : 0 < d) (hcap : d < cap) :
    (a + d) % cap ≠ a % cap := by
  intro h
  have hmod : a % cap = (a + d) % cap := h.symm
  have hdvd : cap ∣ a + d - a := (Nat.modEq_iff_dvd' (Nat.le_add_right a d)).mp hmod
  have hdvd' : cap ∣ d := by simpa using hdvd
  have := Nat.le_of_dvd hd hdvd'
  omega

theorem QueueAbs_length {α : Type} {q : LockFreeQueue α} {l : List α}
    (h : QueueAbs q l) : q.write_pos - q.read_pos = l.length := by
  have := congrArg List.length h.2.2
  simpa [LockFreeQueue.contents] using this

theorem QueueAbs_init {α : Type} (cap : Nat) :
    QueueAbs (LockFreeQueue.init α cap) [] := by
  refine ⟨Nat.le_refl 0, by simp [LockFreeQueue.init], ?_⟩
  simp [LockFreeQueue.contents, LockFreeQueue.init]

theorem try_push_spec {α : Type} (q : LockFreeQueue α) (v : α) (l : List α)
    (h : QueueAbs q l) :
    (q.buffer.length ≤ l.length → q.try_push v = (false, q)) ∧
    (l.length < q.buffer.length →
      (q.try_push v).1 = true ∧
      (q.try_push v).2.write_pos = q.write_pos + 1 ∧
      (q.try_push v).2.read_pos = q.read_pos ∧
      QueueAbs (q.try_push v).2 (l ++ [v])) := by
  obtain ⟨h1, h2, h3⟩ := h
  have hn : q.write_pos - q.read_pos = l.length := by
    have := congrArg List.length h3
    simpa [LockFreeQueue.contents] using this
  constructor
  · intro hfull
    rw [LockFreeQueue.try_push, if_pos (by omega)]
  · intro hlt
    have hcap : 0 < q.buffer.length := by omega
    have hw : q.write_pos = q.read_pos + l.length := by omega
    have hcond : ¬ q.buffer.length ≤ q.write_pos - q.read_pos := by omega
    rw [LockFreeQueue.try_push, if_neg hcond]
    refine ⟨rfl, rfl, rfl, by simpa using by omega, ?_, ?_⟩
    · show q.write_pos + 1 - q.read_pos ≤
        (q.buffer.set (q.write_pos % q.buffer.length) (some v)).length
      simpa using by omega
    · show LockFreeQueue.contents
        ⟨q.buffer.set (q.write_pos % q.buffer.length) (some v), q.read_pos,
          q.write_pos + 1⟩ = (l ++ [v]).map some
      rw [LockFreeQueue.contents]
      simp only [List.length_set]
      have hr : q.write_pos + 1 - q.read_pos = l.length + 1 := by omega
      rw [hr, List.range_succ, List.map_append, List.map_append]
      congr 1
      · rw [LockFreeQueue.contents, hn] at h3
        rw [← h3]
        refine List.map_congr_left ?_
        intro i hi
        have hi' : i < l.length := List.mem_range.mp hi
        have hne : (q.read_pos + i) % q.buffer.length ≠
            q.write_pos % q.buffer.length := by
          have : q.write_pos = (q.read_pos + i) + (l.length - i) := by omega
          rw [this]
          exact (mod_add_ne (by omega) (by omega)).symm
        exact getD_set_ne _ _ _ _ _ hne
      · have hslot : (q.read_pos + l.length) % q.buffer.length =
            q.write_pos % q.buffer.length := by rw [hw]
        simp only [List.map_cons, List.map_nil, hslot]
        rw [getD_set_self _ _ _ _ (Nat.mod_lt _ hcap)]

theorem try_pop_spec {α : Type} (q : LockFreeQueue α) (l : List α)
    (h : QueueAbs q l) :
    (l = [] → q.try_pop = (none, q)) ∧
    (∀ v l', l = v :: l' →
      (q.try_pop).1 = some v ∧
      (q.try_pop).2.read_pos = q.read_pos + 1 ∧
      (q.try_pop).2.write_pos = q.write_pos ∧
      QueueAbs (q.try_pop).2 l') := by
  obtain ⟨h1, h2, h3⟩ := h
  have hn : q.write_pos - q.read_pos = l.length := by
    have := congrArg List.length h3
    simpa [LockFreeQueue.contents] using this
  constructor
  · intro hnil
    subst hnil
    rw [LockFreeQueue.try_pop, if_pos (by simp at hn; omega)]
  · intro v l' hl
    subst hl
    simp only [List.length_cons] at hn
    have hcap : 0 < q.buffer.length := by omega
    have hcond : ¬ q.write_pos ≤ q.read_pos := by omega
    rw [LockFreeQueue.contents, hn, List.range_succ_eq_map, List.map_cons,
      List.map_map, List.map_cons] at h3
    have hhead : q.buffer.getD ((q.read_pos + 0) % q.buffer.length) none = some v :=
      (List.cons.injEq _ _ _ _ ▸ h3).1
    have htail : (List.range (l'.length)).map
        ((fun i => q.buffer.getD ((q.read_pos + i) % q.buffer.length) none) ∘
          (fun i => i + 1)) = l'.map some :=
      (List.cons.injEq _ _ _ _ ▸ h3).2
    rw [LockFreeQueue.try_pop, if_neg hcond]
    have hval : q.buffer.getD (q.read_pos % q.buffer.length) none = some v := by
      simpa using hhead
    refine ⟨by simpa using hval, rfl, rfl, by simpa using by omega, ?_, ?_⟩
    · show q.write_pos - (q.read_pos + 1) ≤
        (q.buffer.set (q.read_pos % q.buffer.length) none).length
      simpa using by omega
    · show LockFreeQueue.contents
        ⟨q.buffer.set (q.read_pos % q.buffer.length) none, q.read_pos + 1,
          q.write_pos⟩ = l'.map some
      rw [LockFreeQueue.contents]
      simp only [List.length_set]
      have hr : q.write_pos - (q.read_pos + 1) = l'.length := by omega
      rw [hr, ← htail]
      refine List.map_congr_left ?_
      intro i hi
      have hi' : i < l'.length := List.mem_range.mp hi
      have hne : (q.read_pos + 1 + i) % q.buffer.length ≠
          q.read_pos % q.buffer.length := by
        have : q.read_pos + 1 + i = q.read_pos + (1 + i) := by omega
        rw [this]
        exact mod_add_ne (by omega) (by omega)
      rw [getD_set_ne _ _ _ _ _ hne]
      show q.buffer.getD ((q.read_pos + 1 + i) % q.buffer.length) none =
        q.buffer.getD ((q.read_pos + (i + 1)) % q.buffer.length) none
      congr 2
      omega

theorem runQueue_spec {α : Type} (ops : List (QueueOp α)) (q : LockFreeQueue α)
    (l : List α) (h : QueueAbs q l) (qf : LockFreeQueue α) (outs : List α)
    (hrun : runQueue q ops = some (qf, outs)) :
    ∃ lf, QueueAbs qf lf ∧ l ++ pushedValues ops = outs ++ lf := by
  induction ops generalizing q l outs with
  | nil =>
    rw [runQueue] at hrun
    simp only [Option.some.injEq, Prod.mk.injEq] at hrun
    obtain ⟨hq, houts⟩ := hrun
    subst hq
    subst houts
    exact ⟨l, h, by simp [pushedValues]⟩
  | cons op rest ih =>
    cases op with
    | push v =>
      rw [runQueue] at hrun
      by_cases hfull : q.buffer.length ≤ l.length
      · rw [(try_push_spec q v l h).1 hfull] at hrun
        cases hrun
      · obtain ⟨hp1, _, _, habs⟩ := (try_push_spec q v l h).2 (by omega)
        have hq' : q.try_push v = (true, (q.try_push v).2) := by
          rw [← hp1]
        rw [hq'] at hrun
        change runQueue (q.try_push v).2 rest = some (qf, outs) at hrun
        obtain ⟨lf, hlf, heq⟩ := ih _ _ habs outs hrun
        refine ⟨lf, hlf, ?_⟩
        show l ++ pushedValues (QueueOp.push v :: rest) = outs ++ lf
        rw [pushedValues]
        rw [show l ++ v :: pushedValues rest = (l ++ [v]) ++ pushedValues rest by simp]
        exact heq
    | pop =>
      cases l with
      | nil =>
        rw [runQueue, (try_pop_spec q [] h).1 rfl] at hrun
        cases hrun
      | cons v l' =>
        obtain ⟨hp1, _, _, habs⟩ := (try_pop_spec q (v :: l') h).2 v l' rfl
        have hq' : q.try_pop = (some v, (q.try_pop).2) := by
          rw [← hp1]
        rw [runQueue, hq'] at hrun
        change Option.map (fun r => (r.1, v :: r.2)) (runQueue (q.try_pop).2 rest) =
          some (qf, outs) at hrun
        cases hrest : runQueue (q.try_pop).2 rest with
        | none =>
          rw [hrest] at hrun
          cases hrun
        | some r =>
          rw [hrest] at hrun
          simp only [Option.map_some', Option.some.injEq, Prod.mk.injEq] at hrun
          obtain ⟨hq1, houts⟩ := hrun
          subst hq1
          subst houts
          obtain ⟨lf, hlf, heq⟩ := ih _ _ habs r.2 (by rw [hrest])
          refine ⟨lf, hlf, ?_⟩
          show (v :: l') ++ pushedValues (QueueOp.pop :: rest) = (v :: r.2) ++ lf
          rw [pushedValues]
          have := congrArg (fun t => v :: t) heq
          simpa using this

/-- Claim C8: sequential SPSC queue semantics and FIFO. -/
theorem claim_C8_spsc_queue (α : Type) :
    (∀ (q : LockFreeQueue α) (v : α) (l : List α), QueueAbs q l →
      (q.buffer.length ≤ q.write_pos - q.read_pos → q.try_push v = (false, q)) ∧
      (q.write_pos - q.read_pos < q.buffer.length →
        (q.try_push v).1 = true ∧
        (q.try_push v).2.write_pos = q.write_pos + 1 ∧
        QueueAbs (q.try_push v).2 (l ++ [v]))) ∧
    (∀ (q : LockFreeQueue α) (l : List α), QueueAbs q l →
      (q.write_pos ≤ q.read_pos → q.try_pop = (none, q)) ∧
      (∀ v l', l = v :: l' →
        (q.try_pop).1 = some v ∧
        (q.try_pop).2.read_pos = q.read_pos + 1 ∧
        QueueAbs (q.try_pop).2 l')) ∧
    (∀ (cap : Nat) (ops : List (QueueOp α)) (qf : LockFreeQueue α) (outs : List α),
      runQueue (LockFreeQueue.init α cap) ops = some (qf, outs) →
      (pushedValues ops).take outs.length = outs ∧
      (qf.write_pos = qf.read_pos → outs = pushedValues ops)) := by
  refine ⟨?_, ?_, ?_⟩
  · intro q v l h
    have hn := QueueAbs_length h
    constructor
    · intro hfull
      exact (try_push_spec q v l h).1 (by omega)
    · intro hlt
      obtain ⟨hp1, hp2, _, habs⟩ := (try_push_spec q v l h).2 (by omega)
      exact ⟨hp1, hp2, habs⟩
  · intro q l h
    have hn := QueueAbs_length h
    constructor
    · intro hempty
      refine (try_pop_spec q l h).1 ?_
      have : l.length = 0 := by omega
      exact List.eq_nil_of_length_eq_zero this
    · intro v l' hl
      obtain ⟨hp1, hp2, _, habs⟩ := (try_pop_spec q l h).2 v l' hl
      exact ⟨hp1, hp2, habs⟩
  · intro cap ops qf outs hrun
    obtain ⟨lf, hlf, heq⟩ := runQueue_spec ops _ [] (QueueAbs_init cap) qf outs hrun
    simp only [List.nil_append] at heq
    constructor
    · rw [heq, List.take_left]
    · intro hmatched
      have hlen : lf.length = 0 := by
        have := QueueAbs_length hlf
        omega
      rw [heq, List.eq_nil_of_length_eq_zero hlen, List.append_nil]

/-- Witness for `claim_C8_spsc_queue`: a matched sequence of two pushes and
two pops on a capacity-2 queue pops exactly the pushed values in order. -/
theorem claim_C8_spsc_queue_witness : ([1, 2] : List Nat) = pushedValues c8Ops :=
  ((claim_C8_spsc_queue Nat).2.2 2 c8Ops c8Final [1, 2] (by decide)).2 (by decide)

theorem sorted_last_max (s : List Nat) (hs : s.Sorted (· ≤ ·)) (hne : s ≠ []) :
    s.getD (s.length - 1) 0 ∈ s ∧ ∀ x ∈ s, x ≤ s.getD (s.length - 1) 0 := by
  have hlen : 0 < s.length := List.length_pos.mpr hne
  have hidx : s.length - 1 < s.length := by omega
  rw [List.getD_eq_getElem _ _ hidx]
  constructor
  · exact List.getElem_mem hidx
  · intro x hx
    obtain ⟨i, hix⟩ := List.mem_iff_get.mp hx
    rw [← hix]
    rcases eq_or_lt_of_le (show i.1 ≤ s.length - 1 by omega) with he | hlt
    · have hieq : i = ⟨s.length - 1, hidx⟩ := Fin.ext he
      rw [hieq]
      exact le_of_eq (by rw [List.get_eq_getElem])
    · have := hs.rel_get_of_lt (a := i) (b := ⟨s.length - 1, hidx⟩) hlt
      simpa [List.get_eq_getElem] using this

/-- Claim C9 (amended): for a non-empty Timekeeper and p ∈ [0,1]: the query
sorts the stored samples in place, preserving them as a multiset; for p in
(0,1] it returns the element at rank ⌈p·n⌉ − 1 of the sorted samples (so
percentile(1) is the maximum); but percentile(0) returns the MAXIMUM sample,
not the minimum: the rank ⌈0·n⌉ − 1 = 0 − 1 wraps in `size_t` arithmetic and
is then clamped down to n − 1. -/
theorem claim_C9_percentile (t : Timekeeper) (p : ℚ)
    (hne : t.samples ≠ [])
    (hwf : t.sorted = true → t.samples.Sorted (· ≤ ·))
    (hn : t.samples.length < szMod)
    (h0 : 0 ≤ p) (h1 : p ≤ 1) :
    List.Perm (t.percentile p).2.samples t.samples ∧
    (0 < p → (t.percentile p).1 =
      (List.insertionSort (· ≤ ·) t.samples).getD
        (Int.toNat ⌈p * (t.samples.length : ℚ)⌉ - 1) 0) ∧
    (p = 0 ∨ p = 1 → (t.percentile p).1 ∈ t.samples ∧
      ∀ x ∈ t.samples, x ≤ (t.percentile p).1) := by
  have hsort_eq : t.sort_samples =
      { t with samples := List.insertionSort (· ≤ ·) t.samples, sorted := true } := by
    rw [Timekeeper.sort_samples]
    by_cases hs : t.sorted = true
    · rw [if_pos hs, (hwf hs).insertionSort_eq]
      cases t with
      | mk s ms fl =>
        simp only at hs
        rw [hs]
    · rw [if_neg hs]
  have hslen : (List.insertionSort (· ≤ ·) t.samples).length = t.samples.length :=
    List.length_insertionSort (r := (· ≤ ·)) t.samples
  have hper : t.percentile p =
      ((List.insertionSort (· ≤ ·) t.samples).getD
        (percentileIdx p t.samples.length) 0,
       { t with samples := List.insertionSort (· ≤ ·) t.samples, sorted := true }) := by
    rw [Timekeeper.percentile, if_neg hne, hsort_eq]
    simp only [hslen]
  have hsorted : (List.insertionSort (· ≤ ·) t.samples).Sorted (· ≤ ·) :=
    List.sorted_insertionSort (r := (· ≤ ·)) t.samples
  have hperm : List.Perm (List.insertionSort (· ≤ ·) t.samples) t.samples :=
    List.perm_insertionSort _ _
  have hnlen : 0 < t.samples.length := List.length_pos.mpr hne
  have hsne : List.insertionSort (· ≤ ·) t.samples ≠ [] := by
    intro hcon
    have h0 := hslen
    rw [hcon] at h0
    simp at h0
    omega
  have hsz : szMod = 18446744073709551616 := by
    rw [szMod]
    norm_num
  refine ⟨?_, ?_, ?_⟩
  · rw [hper]
    exact hperm
  · intro hp
    have hk1 : (1 : ℤ) ≤ ⌈p * (t.samples.length : ℚ)⌉ := by
      have hpos : 0 < p * (t.samples.length : ℚ) :=
        mul_pos hp (by exact_mod_cast hnlen)
      exact Int.ceil_pos.mpr hpos
    have hkn : ⌈p * (t.samples.length : ℚ)⌉ ≤ (t.samples.length : ℤ) := by
      apply Int.ceil_le.mpr
      push_cast
      calc p * (t.samples.length : ℚ) ≤ 1 * (t.samples.length : ℚ) :=
        mul_le_mul_of_nonneg_right h1 (by positivity)
      _ = (t.samples.length : ℚ) := one_mul _
    have hidx2 : percentileIdx p t.samples.length =
        Int.toNat ⌈p * (t.samples.length : ℚ)⌉ - 1 := by
      rw [percentileIdx, hsz]
      rw [hsz] at hn
      omega
    rw [hper, hidx2]
  · intro hp01
    have hidx : percentileIdx p t.samples.length = t.samples.length - 1 := by
      rw [hsz] at hn
      rcases hp01 with rfl | rfl
      · rw [percentileIdx]
        have hc : ⌈(0 : ℚ) * (t.samples.length : ℚ)⌉ = 0 := by simp
        rw [hc, hsz]
        simp only [Int.toNat_zero]
        omega
      · rw [percentileIdx]
        have hc : ⌈(1 : ℚ) * (t.samples.length : ℚ)⌉ = (t.samples.length : ℤ) := by
          simp
        rw [hc, Int.toNat_natCast, hsz]
        omega
    rw [hper, hidx]
    have hmax := sorted_last_max _ hsorted hsne
    rw [hslen] at hmax
    exact ⟨hperm.mem_iff.mp hmax.1, fun x hx => hmax.2 x (hperm.mem_iff.mpr hx)⟩

/-- Claim C9 counterexample: on samples {10, 20, 30}, percentile(0) returns
30 (the maximum), not the minimum 10 the claim promises: the unsigned rank
underflows and is clamped to n − 1 = 2. -/
theorem claim_C9_counterexample :
    (Timekeeper.percentile c9Tk 0).1 = 30 ∧
    ¬ (Timekeeper.percentile c9Tk 0).1 = 10 := by
  have hidx : percentileIdx 0 3 = 2 := by
    rw [percentileIdx]
    have h1 : ⌈(0 : ℚ) * ((3 : Nat) : ℚ)⌉ = 0 := by norm_num
    rw [h1, szMod]
    norm_num
  have hval : (Timekeeper.percentile c9Tk 0).1 = 30 := by
    rw [Timekeeper.percentile, if_neg (show ¬ c9Tk.samples = [] by decide)]
    have hsort : c9Tk.sort_samples = ⟨[10, 20, 30], 1000, true⟩ := by decide
    simp only [hsort]
    show ([10, 20, 30] : List Nat).getD (percentileIdx 0 3) 0 = 30
    rw [hidx]
    rfl
  exact ⟨hval, by rw [hval]; omega⟩

/-- Witness for `claim_C9_percentile`: the median query p = 1/2 on
{10, 20, 30} returns the sorted element at rank ⌈3/2⌉ − 1 = 1. -/
theorem claim_C9_percentile_witness :
    (Timekeeper.percentile c9Tk (1/2)).1 =
      (List.insertionSort (· ≤ ·) c9Tk.samples).getD
        (Int.toNat ⌈(1/2 : ℚ) * (c9Tk.samples.length : ℚ)⌉ - 1) 0 :=
  (claim_C9_percentile c9Tk (1/2) (by decide) (by decide) (by decide)
    (by norm_num) (by norm_num)).2.1 (by norm_num)

end Trading
